import Mathlib

/-!
Shallow embedding of the object-aggregation core of `src/src/core/object.cc`
and of the accessor adapters of `src/src/core/attribute-accessor-helper.h`.

Objects are numbered by `Nat`; the heap is a record of per-object fields
mirroring the data members of `ns3::Object`.  The interface-id registry
(`IidTree`) is a parent function `Nat → Nat` together with the root id
(`Object::iid ()`, which is its own parent).  Every source-code loop is
translated with an explicit fuel argument; the theorems supply enough fuel
from the ring/chain hypotheses, so the fuel never runs out on the inputs
the theorems speak about.
-/

namespace NS3

/-- Heap of object states: the data members of `ns3::Object`
(`m_count`, `m_iid`, `m_disposed`, `m_collecting`, `m_next`). -/
structure ObjState where
  next : Nat → Nat
  count : Nat → Nat
  iid : Nat → Nat
  disposed : Nat → Bool
  collecting : Nat → Bool

/-- The parent walk inside `Object::DoQueryInterface`:
`while (cur != iid && cur != Object::iid ()) cur = InterfaceId::LookupParent (cur);`
returning the final value of `cur`. -/
def queryLoop (parent : Nat → Nat) (root iid : Nat) : Nat → Nat → Nat
  | 0, cur => cur
  | fuel+1, cur =>
    if cur ≠ iid ∧ cur ≠ root then queryLoop parent root iid fuel (parent cur) else cur

/-- Ancestor chain of a type id: the id itself followed by its parents, up to
and including the root id.  This is the specification-side reading of the
type-or-ancestor relation used by `QueryInterface`. -/
def ancestorChain (parent : Nat → Nat) (root : Nat) : Nat → Nat → List Nat
  | 0, cur => [cur]
  | fuel+1, cur => if cur = root then [cur] else cur :: ancestorChain parent root fuel (parent cur)

/-- Ancestor chain of a type id up to but excluding the root id: the ids
enumerated by the inner loop of `Object::DoCollectSources`. -/
def strictAncestorChain (parent : Nat → Nat) (root : Nat) : Nat → Nat → List Nat
  | 0, _ => []
  | fuel+1, cur =>
    if cur = root then [] else cur :: strictAncestorChain parent root fuel (parent cur)

/-- Do-while search over the ring: test `cur`, return it on a hit, stop with
`none` once the successor pointer returns to `start`.  This is the common
shape of the do-while loops in `DoQueryInterface`, the count check of
`MaybeDelete`, and the `m_collecting` guard check of
`DoCollectSources`/`DoTraceAll`. -/
def ringFindAux (next : Nat → Nat) (start : Nat) (pred : Nat → Bool) : Nat → Nat → Option Nat
  | 0, _ => none
  | fuel+1, cur =>
    if pred cur then some cur
    else if next cur = start then none
    else ringFindAux next start pred fuel (next cur)

/-- Do-while collection over the ring (the deletion walk of
`Object::MaybeDelete`): record `cur`, stop once the successor pointer
returns to `start`. -/
def ringWalkAux (next : Nat → Nat) (start : Nat) : Nat → Nat → List Nat
  | 0, _ => []
  | fuel+1, cur => cur :: (if next cur = start then [] else ringWalkAux next start fuel (next cur))

/-- While-loop visit over the ring (the enumeration walks of
`Object::DoCollectSources` and `Object::DoTraceAll`): stop as soon as `cur`
equals `start`, otherwise emit for `cur` and advance. -/
def ringVisitAux {α : Type} (next : Nat → Nat) (start : Nat) (emit : Nat → List α) :
    Nat → Nat → List α
  | 0, _ => []
  | fuel+1, cur => if cur = start then [] else emit cur ++ ringVisitAux next start emit fuel (next cur)

/-- `Object::DoQueryInterface (iid)`: walk the ring starting at `self`; for
each member run the parent walk on the member's `m_iid` and return the member
when the walk ends at the requested `iid`; return `none` once the walk comes
back to `self` without a match. -/
def doQueryInterface (s : ObjState) (parent : Nat → Nat) (root iid self : Nat)
    (ifuel ofuel : Nat) : Option Nat :=
  ringFindAux s.next self (fun m => decide (queryLoop parent root iid ifuel (s.iid m) = iid))
    ofuel self

/-- Walk of `Object::Dispose`: visit the ring from `self`; at each member,
`NS_ASSERT (!current->m_disposed)` (modelled as the `none` outcome), then run
`DoDispose` (recorded in the returned list) and set `m_disposed`.  The result
is the list of members whose teardown hook ran, paired with `some` updated
disposed-flags on success and `none` when the assertion fired. -/
def disposeAux (next : Nat → Nat) (self : Nat) :
    Nat → (Nat → Bool) → Nat → List Nat × Option (Nat → Bool)
  | 0, _, _ => ([], none)
  | fuel+1, disposed, cur =>
    if disposed cur then ([], none)
    else
      let disposed2 : Nat → Bool := fun i => if i = cur then true else disposed i
      if next cur = self then ([cur], some disposed2)
      else
        let r := disposeAux next self fuel disposed2 (next cur)
        (cur :: r.1, r.2)

/-- `Object::Dispose ()` on object `self`. -/
def dispose (s : ObjState) (self : Nat) (fuel : Nat) : List Nat × Option (Nat → Bool) :=
  disposeAux s.next self fuel s.disposed self

/-- `Object::AddInterface (o)`: splice the two circular lists by exchanging
successor pointers (`Object *next = m_next; m_next = other->m_next;
other->m_next = next;`).  No other field is touched. -/
def addInterface (s : ObjState) (self other : Nat) : ObjState :=
  ⟨fun i => if i = self then s.next other else if i = other then s.next self else s.next i,
   s.count, s.iid, s.disposed, s.collecting⟩

/-- `Object::MaybeDelete ()`: first do-while walk looking for a member with a
non-zero `m_count` (a hit returns with nothing deleted); if none is found, a
second do-while walk deletes every member.  The result is the list of deleted
members. -/
def maybeDelete (s : ObjState) (self : Nat) (fuel : Nat) : List Nat :=
  match ringFindAux s.next self (fun m => decide (s.count m ≠ 0)) fuel self with
  | some _ => []
  | none => ringWalkAux s.next self fuel self

/-- The guard walk opening `Object::DoCollectSources` and
`Object::DoTraceAll`: do-while over the ring; `true` when some member's
`m_collecting` flag is set (the call then returns immediately). -/
def guardCheck (s : ObjState) (self : Nat) (fuel : Nat) : Bool :=
  (ringFindAux s.next self (fun m => s.collecting m) fuel self).isSome

/-- The inner loop of `Object::DoCollectSources` for one member: walk the
member's `m_iid` up the parent table while it differs from the root id,
building `fullpath = path + "/$" + name` at each step. -/
def collectChainPaths (parent : Nat → Nat) (root : Nat) (name : Nat → String) (path : String) :
    Nat → Nat → List String
  | 0, _ => []
  | fuel+1, cur =>
    if cur = root then []
    else (path ++ "/$" ++ name cur) :: collectChainPaths parent root name path fuel (parent cur)

/-- `Object::DoCollectSources`: if the guard walk finds a set `m_collecting`
flag, return with no effect; otherwise set the receiver's flag, walk the ring
from `m_next` while the current member differs from the receiver, emitting
one delegated `CollectSources` call per ancestor-chain entry of the member
(recorded as a `(member, fullpath)` pair), and finally clear the receiver's
flag.  The result pairs the emitted delegations with the final
`m_collecting` state. -/
def doCollectSources (s : ObjState) (parent : Nat → Nat) (root : Nat) (name : Nat → String)
    (self : Nat) (path : String) (ifuel wfuel gfuel : Nat) :
    List (Nat × String) × (Nat → Bool) :=
  if guardCheck s self gfuel then ([], s.collecting)
  else
    (ringVisitAux s.next self
       (fun m => (collectChainPaths parent root name path ifuel (s.iid m)).map (fun fp => (m, fp)))
       wfuel (s.next self),
     fun i => if i = self then false else s.collecting i)

/-- `Object::DoTraceAll`: same guard as `DoCollectSources`, then walk the
ring from `m_next` while the current member differs from the receiver,
delegating `TraceAll` to each visited member (recorded as the member). -/
def doTraceAll (s : ObjState) (self : Nat) (gfuel wfuel : Nat) :
    List Nat × (Nat → Bool) :=
  if guardCheck s self gfuel then ([], s.collecting)
  else
    (ringVisitAux s.next self (fun m => [m]) wfuel (s.next self),
     fun i => if i = self then false else s.collecting i)

/-- Modelled from the spec: `TraceResolver::GetElement` is not under `src/`;
the spec says a path is a sequence of `/`-separated elements.  Split a
character list on `'/'`. -/
def splitOnSlash : List Char → List (List Char)
  | [] => [[]]
  | c :: cs =>
    if c = '/' then [] :: splitOnSlash cs
    else
      match splitOnSlash cs with
      | [] => [[c]]
      | g :: gs => (c :: g) :: gs

/-- Modelled from the spec: `GetElement` returns the first `/`-separated
element of the path. -/
def getElement (path : String) : String :=
  match (splitOnSlash path.toList).filter (fun g => !g.isEmpty) with
  | [] => ""
  | g :: _ => String.mk g

/-- Modelled from the spec: `GetSubpath` returns the remaining path after the
first element is consumed. -/
def getSubpath (path : String) : String :=
  match (splitOnSlash path.toList).filter (fun g => !g.isEmpty) with
  | [] => ""
  | _ :: gs => String.mk ('/' :: List.intercalate ['/'] gs)

/-- `InterfaceIdTraceResolver::ParseForInterface`: take the first path
element; if its first character is not `$` (`element.find ("$") != 0`),
return null; otherwise look the rest of the element up in the registry and
`QueryInterface` the resulting id against the bound aggregate. -/
def parseForInterface (s : ObjState) (parent : Nat → Nat) (root : Nat)
    (lookupByName : String → Nat) (aggregate : Nat) (ifuel ofuel : Nat)
    (path : String) : Option Nat :=
  match (getElement path).toList with
  | '$' :: rest => doQueryInterface s parent root (lookupByName (String.mk rest)) aggregate ifuel ofuel
  | _ => none

/-- `InterfaceIdTraceResolver::Connect`: when `ParseForInterface` yields an
interface, delegate `Connect (GetSubpath (path))` to it (recorded as the
member/subpath pair); otherwise do nothing. -/
def iidtrConnect (s : ObjState) (parent : Nat → Nat) (root : Nat)
    (lookupByName : String → Nat) (aggregate : Nat) (ifuel ofuel : Nat)
    (path : String) : Option (Nat × String) :=
  match parseForInterface s parent root lookupByName aggregate ifuel ofuel path with
  | none => none
  | some interface => some (interface, getSubpath path)

/-- `InterfaceIdTraceResolver::Disconnect`: when `ParseForInterface` yields
an interface, delegate `TraceDisconnect (GetSubpath (path))` to it; otherwise
do nothing. -/
def iidtrDisconnect (s : ObjState) (parent : Nat → Nat) (root : Nat)
    (lookupByName : String → Nat) (aggregate : Nat) (ifuel ofuel : Nat)
    (path : String) : Option (Nat × String) :=
  match parseForInterface s parent root lookupByName aggregate ifuel ofuel path with
  | none => none
  | some interface => some (interface, getSubpath path)

/-- The ring of `self` is `self :: rest`: consecutive members are linked by
`m_next`, the last member links back to `self`, and no member repeats. -/
def IsRingFrom (next : Nat → Nat) (self : Nat) (rest : List Nat) : Prop :=
  List.Chain (fun a b => next a = b) self rest ∧
  next (rest.getLastD self) = self ∧
  (self :: rest).Nodup

/-- The boxed-value interface used by the adapters: `V::Get`
(returning the value representation) and `V::Set` (storing one). -/
structure BoxOps (V A : Type) where
  get : V → A
  set : V → A → V

/-- The virtual `DoSet`/`DoGet` pair of a concrete `AccessorHelper<T,U>`
subclass.  A C++ `DoSet` that returns `false` without touching the object is
modelled as `none`; success with the updated object is `some`. -/
structure AccessorHelper (T V : Type) where
  doSet : T → V → Option T
  doGet : T → V → Option V

/-- `AccessorHelper<T,U>::Set`: downcast the boxed value
(`val.DynCast<const U*> ()`), then the object (`dynamic_cast<T *>`); if
either fails return `false` with the object untouched, otherwise run `DoSet`
and write the mutated `T`-part back. -/
def AccessorHelper.set {Obj Attr T V : Type} (h : AccessorHelper T V)
    (attrDynCast : Attr → Option V) (objDynCast : Obj → Option T)
    (objUpdate : Obj → T → Obj) (object : Obj) (val : Attr) : Bool × Obj :=
  match attrDynCast val with
  | none => (false, object)
  | some value =>
    match objDynCast object with
    | none => (false, object)
    | some obj =>
      match h.doSet obj value with
      | none => (false, object)
      | some obj2 => (true, objUpdate object obj2)

/-- `AccessorHelper<T,U>::Get`: downcast the boxed value, then the object; if
either fails return `false` with the box untouched, otherwise run `DoGet` and
write the populated box back. -/
def AccessorHelper.get {Obj Attr T V : Type} (h : AccessorHelper T V)
    (attrDynCast : Attr → Option V) (objDynCast : Obj → Option T)
    (attrUpdate : Attr → V → Attr) (object : Obj) (val : Attr) : Bool × Attr :=
  match attrDynCast val with
  | none => (false, val)
  | some value =>
    match objDynCast object with
    | none => (false, val)
    | some obj =>
      match h.doGet obj value with
      | none => (false, val)
      | some v2 => (true, attrUpdate val v2)

/-- The member-variable adapter of `DoMakeAccessorHelperOne (U T::*)`:
`DoSet` stores `U (v->Get ())` into the field, `DoGet` boxes the field.  The
field is modelled as its read/write pair, the `U (...)` conversion as
`uOfA`, and the implicit `U → A` conversion of `v->Set` as `aOfU`. -/
def memberVariable {T U V A : Type} (box : BoxOps V A) (uOfA : A → U) (aOfU : U → A)
    (fget : T → U) (fset : T → U → T) : AccessorHelper T V :=
  ⟨fun object v => some (fset object (uOfA (box.get v))),
   fun object v => some (box.set v (aOfU (fget object)))⟩

/-- The getter-only adapter of `DoMakeAccessorHelperOne (U (T::*) () const)`:
`DoSet` always reports failure, `DoGet` boxes the getter's result. -/
def memberMethodGetter {T U V A : Type} (box : BoxOps V A) (aOfU : U → A)
    (getter : T → U) : AccessorHelper T V :=
  ⟨fun _ _ => none, fun object v => some (box.set v (aOfU (getter object)))⟩

/-- The setter-only adapter of `DoMakeAccessorHelperOne (void (T::*) (U))`:
`DoSet` invokes the setter with the unboxed value, `DoGet` always reports
failure. -/
def memberMethodSetter {T U V A : Type} (box : BoxOps V A) (uOfA : A → U)
    (setter : T → U → T) : AccessorHelper T V :=
  ⟨fun object v => some (setter object (uOfA (box.get v))), fun _ _ => none⟩

/-- The getter-and-setter adapter of `DoMakeAccessorHelperTwo`. -/
def memberMethodPair {T U V A : Type} (box : BoxOps V A) (uOfA : A → U) (aOfU : U → A)
    (setter : T → U → T) (getter : T → U) : AccessorHelper T V :=
  ⟨fun object v => some (setter object (uOfA (box.get v))),
   fun object v => some (box.set v (aOfU (getter object)))⟩

/-- Concrete two-member ring used to evaluate the enumeration walks: objects
`0` and `1` aggregated together, with type ids `2` and `3`, both direct
children of the root id `0`. -/
def exampleState : ObjState :=
  ⟨fun i => if i = 0 then 1 else 0,
   fun _ => 1,
   fun i => if i = 0 then 2 else 3,
   fun _ => false,
   fun _ => false⟩

/-- Parent table for `exampleState`: ids `2` and `3` are children of the root
id `0`. -/
def exampleParent : Nat → Nat := fun _ => 0

/-- Registered names for `exampleState`'s type ids. -/
def exampleName : Nat → String := fun i => if i = 2 then "A" else "B"

/-- The two-member ring with member `0` at count zero while member `1` still
holds a reference (the X/Y scenario of the reference-count walk). -/
def exampleStateHalf : ObjState :=
  ⟨fun i => if i = 0 then 1 else 0,
   fun i => if i = 0 then 0 else 1,
   fun i => if i = 0 then 2 else 3,
   fun _ => false,
   fun _ => false⟩

/-- The two-member ring with every member at count zero. -/
def exampleStateZero : ObjState :=
  ⟨fun i => if i = 0 then 1 else 0,
   fun _ => 0,
   fun i => if i = 0 then 2 else 3,
   fun _ => false,
   fun _ => false⟩

/-- The two-member ring after a completed disposal (both flags set). -/
def exampleDisposedState : ObjState :=
  ⟨fun i => if i = 0 then 1 else 0,
   fun _ => 1,
   fun i => if i = 0 then 2 else 3,
   fun _ => true,
   fun _ => false⟩

/-- Two disjoint singleton rings (`0` and `1` each alone). -/
def examplePairState : ObjState :=
  ⟨fun i => i, fun _ => 1, fun _ => 2, fun _ => false, fun _ => false⟩

/-- The heap state during the enumeration walk of `DoCollectSources` /
`DoTraceAll` started at `self`: the receiver's `m_collecting` flag is set
(`m_collecting = true;`), everything else unchanged. -/
def duringState (s : ObjState) (self : Nat) : ObjState :=
  ⟨s.next, s.count, s.iid, s.disposed, fun i => if i = self then true else s.collecting i⟩

/-- The two-member ring with member `0`'s `m_collecting` guard flag set. -/
def exampleCollectingState : ObjState :=
  ⟨fun i => if i = 0 then 1 else 0,
   fun _ => 1,
   fun i => if i = 0 then 2 else 3,
   fun _ => false,
   fun i => decide (i = 0)⟩

/-! Helper lemmas about ring walks. -/

theorem getLastD_mem_cons : ∀ (l : List Nat) (d : Nat), l.getLastD d ∈ d :: l
  | [], d => by simp
  | b :: l, d => by
    rw [List.getLastD_cons]
    exact List.mem_cons_of_mem d (getLastD_mem_cons l b)

theorem getLastD_append_cons (l₁ : List Nat) (y : Nat) (l₂ : List Nat) (d : Nat) :
    (l₁ ++ y :: l₂).getLastD d = l₂.getLastD y := by
  induction l₁ generalizing d with
  | nil => exact List.getLastD_cons d y l₂
  | cons a l ih => rw [List.cons_append, List.getLastD_cons]; exact ih a

theorem chainCongr {f g : Nat → Nat} {l : List Nat} {a : Nat}
    (h : List.Chain (fun x y => f x = y) a l)
    (hg : ∀ y ∈ a :: l, g y = f y) : List.Chain (fun x y => g x = y) a l := by
  induction l generalizing a with
  | nil => exact List.Chain.nil
  | cons b l ih =>
    rcases List.chain_cons.mp h with ⟨hab, hbl⟩
    refine List.chain_cons.mpr ⟨?_, ih hbl ?_⟩
    · rw [hg a (List.mem_cons_self a _)]; exact hab
    · intro y hy
      exact hg y (List.mem_cons_of_mem a hy)

theorem chainSnoc {g : Nat → Nat} {l : List Nat} {a z : Nat}
    (h : List.Chain (fun x y => g x = y) a l)
    (hz : g (l.getLastD a) = z) : List.Chain (fun x y => g x = y) a (l ++ [z]) := by
  induction l generalizing a with
  | nil => exact List.chain_cons.mpr ⟨by simpa using hz, List.Chain.nil⟩
  | cons b l ih =>
    rcases List.chain_cons.mp h with ⟨hab, hbl⟩
    rw [List.getLastD_cons] at hz
    exact List.chain_cons.mpr ⟨hab, ih hbl hz⟩

/-- The do-while search over a closed successor path computes `List.find?`
over the members in ring order. -/
theorem ringFindAux_eq_find {next : Nat → Nat} {start : Nat} (pred : Nat → Bool) :
    ∀ (p : List Nat) (x : Nat) (fuel : Nat),
      List.Chain (fun a b => next a = b) x p →
      next (p.getLastD x) = start →
      (∀ y ∈ p, y ≠ start) →
      p.length < fuel →
      ringFindAux next start pred fuel x = (x :: p).find? pred := by
  intro p
  induction p with
  | nil =>
    intro x fuel _ hback _ hfuel
    cases fuel with
    | zero => exact absurd hfuel (by simp)
    | succ f =>
      have hb : next x = start := by simpa using hback
      by_cases hp : pred x
      · simp [ringFindAux, hp]
      · simp [ringFindAux, hp, hb, List.find?]
  | cons y p ih =>
    intro x fuel hchain hback hne hfuel
    cases fuel with
    | zero => exact absurd hfuel (by simp)
    | succ f =>
      rcases List.chain_cons.mp hchain with ⟨hxy, hyp⟩
      by_cases hp : pred x
      · simp [ringFindAux, hp]
      · have hy_ne : next x ≠ start := by rw [hxy]; exact hne y (List.mem_cons_self y p)
        have step : ringFindAux next start pred (f+1) x = ringFindAux next start pred f (next x) := by
          simp [ringFindAux, hp, hy_ne]
        rw [step, hxy, List.find?_cons_of_neg _ hp]
        rw [List.getLastD_cons] at hback
        exact ih y f hyp hback (fun z hz => hne z (List.mem_cons_of_mem y hz))
          (Nat.lt_of_succ_lt_succ (by simpa using hfuel))

/-- The do-while collection over a closed successor path returns exactly the
members in ring order. -/
theorem ringWalkAux_eq {next : Nat → Nat} {start : Nat} :
    ∀ (p : List Nat) (x : Nat) (fuel : Nat),
      List.Chain (fun a b => next a = b) x p →
      next (p.getLastD x) = start →
      (∀ y ∈ p, y ≠ start) →
      p.length < fuel →
      ringWalkAux next start fuel x = x :: p := by
  intro p
  induction p with
  | nil =>
    intro x fuel _ hback _ hfuel
    cases fuel with
    | zero => exact absurd hfuel (by simp)
    | succ f =>
      have hb : next x = start := by simpa using hback
      simp [ringWalkAux, hb]
  | cons y p ih =>
    intro x fuel hchain hback hne hfuel
    cases fuel with
    | zero => exact absurd hfuel (by simp)
    | succ f =>
      rcases List.chain_cons.mp hchain with ⟨hxy, hyp⟩
      have hy_ne : next x ≠ start := by rw [hxy]; exact hne y (List.mem_cons_self y p)
      rw [List.getLastD_cons] at hback
      simp only [ringWalkAux, if_neg hy_ne, hxy]
      rw [ih y f hyp hback (fun z hz => hne z (List.mem_cons_of_mem y hz))
        (Nat.lt_of_succ_lt_succ (by simpa using hfuel))]
      rw [if_neg (hne y (List.mem_cons_self y p))]

theorem ringVisitAux_self {α : Type} {next : Nat → Nat} {start : Nat} {emit : Nat → List α} :
    ∀ fuel, ringVisitAux next start emit fuel start = [] := by
  intro fuel; cases fuel <;> simp [ringVisitAux]

/-- The while-loop visit over a closed successor path emits in ring order. -/
theorem ringVisitAux_eq {α : Type} {next : Nat → Nat} {start : Nat} (emit : Nat → List α) :
    ∀ (p : List Nat) (x : Nat) (fuel : Nat),
      List.Chain (fun a b => next a = b) x p →
      next (p.getLastD x) = start →
      (∀ y ∈ x :: p, y ≠ start) →
      p.length < fuel →
      ringVisitAux next start emit fuel x = (x :: p).flatMap emit := by
  intro p
  induction p with
  | nil =>
    intro x fuel _ hback hne hfuel
    cases fuel with
    | zero => exact absurd hfuel (by simp)
    | succ f =>
      have hb : next x = start := by simpa using hback
      have hx : x ≠ start := hne x (List.mem_cons_self x _)
      simp [ringVisitAux, hx, hb, ringVisitAux_self]
  | cons y p ih =>
    intro x fuel hchain hback hne hfuel
    cases fuel with
    | zero => exact absurd hfuel (by simp)
    | succ f =>
      rcases List.chain_cons.mp hchain with ⟨hxy, hyp⟩
      have hx : x ≠ start := hne x (List.mem_cons_self x _)
      rw [List.getLastD_cons] at hback
      simp only [ringVisitAux, if_neg hx, hxy]
      rw [ih y f hyp hback (fun z hz => hne z (List.mem_cons_of_mem x hz))
        (Nat.lt_of_succ_lt_succ (by simpa using hfuel))]
      simp [List.flatMap_cons]

theorem find?_congrOn {p q : Nat → Bool} :
    ∀ (l : List Nat), (∀ x ∈ l, p x = q x) → l.find? p = l.find? q := by
  intro l
  induction l with
  | nil => intro _; rfl
  | cons a l ih =>
    intro h
    by_cases hp : p a
    · rw [List.find?_cons_of_pos _ hp, List.find?_cons_of_pos _ (by rw [← h a (List.mem_cons_self a l)]; exact hp)]
    · rw [List.find?_cons_of_neg _ hp, List.find?_cons_of_neg _ (by rw [← h a (List.mem_cons_self a l)]; exact hp)]
      exact ih (fun x hx => h x (List.mem_cons_of_mem a hx))

/-- The parent walk of `DoQueryInterface` ends at the requested id exactly
when the id occurs in the member's ancestor chain, provided the chain
reaches the root within the available fuel. -/
theorem queryLoop_eq_iff {parent : Nat → Nat} {root target : Nat} :
    ∀ (fuel : Nat) (i : Nat), root ∈ ancestorChain parent root fuel i →
      (queryLoop parent root target fuel i = target ↔
        target ∈ ancestorChain parent root fuel i) := by
  intro fuel
  induction fuel with
  | zero =>
    intro i _
    simp only [queryLoop, ancestorChain, List.mem_singleton]
    exact eq_comm
  | succ f ih =>
    intro i hroot
    by_cases hr : i = root
    · simp only [ancestorChain, if_pos hr, List.mem_singleton]
      have hcond : ¬(i ≠ target ∧ i ≠ root) := fun hc => hc.2 hr
      simp only [queryLoop, if_neg hcond]
      exact eq_comm
    · simp only [ancestorChain, if_neg hr, List.mem_cons] at hroot ⊢
      have hroot2 : root ∈ ancestorChain parent root f (parent i) := by
        rcases hroot with h | h
        · exact absurd h.symm hr
        · exact h
      by_cases ht : i = target
      · have hcond : ¬(i ≠ target ∧ i ≠ root) := fun hc => hc.1 ht
        simp only [queryLoop, if_neg hcond]
        constructor
        · intro _; exact Or.inl ht.symm
        · intro _; exact ht
      · have hcond : i ≠ target ∧ i ≠ root := ⟨ht, hr⟩
        simp only [queryLoop, if_pos hcond]
        rw [ih (parent i) hroot2]
        constructor
        · intro h; exact Or.inr h
        · intro h
          rcases h with h | h
          · exact absurd h.symm ht
          · exact h

/-- Disposal walk, success case: when no member of the path is disposed, the
walk runs the teardown hook once per member in ring order and marks every
member disposed. -/
theorem disposeAux_clean {next : Nat → Nat} {self : Nat} :
    ∀ (p : List Nat) (x : Nat) (fuel : Nat) (d : Nat → Bool),
      List.Chain (fun a b => next a = b) x p →
      next (p.getLastD x) = self →
      (∀ y ∈ p, y ≠ self) →
      (x :: p).Nodup →
      (∀ y ∈ x :: p, d y = false) →
      p.length < fuel →
      disposeAux next self fuel d x =
        (x :: p, some (fun i => if i ∈ x :: p then true else d i)) := by
  intro p
  induction p with
  | nil =>
    intro x fuel d _ hback _ _ hclean hfuel
    cases fuel with
    | zero => exact absurd hfuel (by simp)
    | succ f =>
      have hb : next x = self := by simpa using hback
      have hdx : d x = false := hclean x (List.mem_cons_self x _)
      have hfun : (fun i => if i = x then true else d i)
          = (fun i => if i ∈ [x] then true else d i) := by
        funext i
        by_cases hi : i = x <;> simp [hi]
      simp only [disposeAux, hdx, Bool.false_eq_true, ite_false, hb, eq_self_iff_true, ite_true]
      exact Prod.ext rfl (congrArg some hfun)
  | cons y p ih =>
    intro x fuel d hchain hback hne hnd hclean hfuel
    cases fuel with
    | zero => exact absurd hfuel (by simp)
    | succ f =>
      rcases List.chain_cons.mp hchain with ⟨hxy, hyp⟩
      have hdx : d x = false := hclean x (List.mem_cons_self x _)
      have hy_ne : next x ≠ self := by rw [hxy]; exact hne y (List.mem_cons_self y p)
      have hx_not : x ∉ y :: p := by
        have := hnd
        rw [List.nodup_cons] at this
        exact this.1
      have hrec := ih y f (fun i => if i = x then true else d i) hyp
        (by rwa [List.getLastD_cons] at hback)
        (fun z hz => hne z (List.mem_cons_of_mem y hz))
        (by rw [List.nodup_cons] at hnd; exact hnd.2)
        (by
          intro z hz
          have hzx : z ≠ x := fun hc => hx_not (hc ▸ hz)
          simp only [if_neg hzx]
          exact hclean z (List.mem_cons_of_mem x hz))
        (Nat.lt_of_succ_lt_succ (by simpa using hfuel))
      have hne_y : y ≠ self := hne y (List.mem_cons_self y p)
      have hfun : (fun i => if i ∈ y :: p then true else if i = x then true else d i)
          = (fun i => if i ∈ x :: y :: p then true else d i) := by
        funext i
        by_cases hix : i = x
        · simp [hix, hx_not]
        · by_cases hiy : i ∈ y :: p <;> simp [List.mem_cons, hix, hiy]
      simp only [disposeAux, hdx, Bool.false_eq_true, ite_false, hxy, if_neg hne_y]
      rw [hrec]
      exact Prod.ext rfl (congrArg some hfun)

/-- Disposal walk, failure case: when some member of the path is already
disposed, the walk hits the `NS_ASSERT (!current->m_disposed)`. -/
theorem disposeAux_dirty {next : Nat → Nat} {self : Nat} :
    ∀ (p : List Nat) (x : Nat) (fuel : Nat) (d : Nat → Bool),
      List.Chain (fun a b => next a = b) x p →
      (∀ y ∈ p, y ≠ self) →
      (x :: p).Nodup →
      (∃ y ∈ x :: p, d y = true) →
      (disposeAux next self fuel d x).2 = none := by
  intro p
  induction p with
  | nil =>
    intro x fuel d _ _ _ hdirty
    rcases hdirty with ⟨y, hy, hdy⟩
    have : y = x := by simpa using hy
    subst this
    cases fuel with
    | zero => rfl
    | succ f => simp [disposeAux, hdy]
  | cons y p ih =>
    intro x fuel d hchain hne hnd hdirty
    cases fuel with
    | zero => rfl
    | succ f =>
      rcases List.chain_cons.mp hchain with ⟨hxy, hyp⟩
      by_cases hdx : d x = true
      · simp [disposeAux, hdx]
      · have hdx2 : d x = false := by
          cases hdxv : d x
          · rfl
          · exact absurd hdxv hdx
        have hx_not : x ∉ y :: p := by
          rw [List.nodup_cons] at hnd
          exact hnd.1
        rcases hdirty with ⟨z, hz, hdz⟩
        have hz2 : z ∈ y :: p := by
          rcases List.mem_cons.mp hz with h | h
          · subst h; exact absurd hdz hdx
          · exact h
        have hy_ne : next x ≠ self := by rw [hxy]; exact hne y (List.mem_cons_self y p)
        have hrec := ih y f (fun i => if i = x then true else d i) hyp
          (fun w hw => hne w (List.mem_cons_of_mem y hw))
          (by rw [List.nodup_cons] at hnd; exact hnd.2)
          ⟨z, hz2, by
            have hzx : z ≠ x := fun hc => hx_not (hc ▸ hz2)
            simp only [if_neg hzx]
            exact hdz⟩
        have hne_y : y ≠ self := hne y (List.mem_cons_self y p)
        simp only [disposeAux, hdx2, Bool.false_eq_true, ite_false, hxy, if_neg hne_y]
        exact hrec

/-- The inner path-building loop of `DoCollectSources` emits exactly one
`path + "/$" + name` entry per strict-ancestor-chain element. -/
theorem collectChainPaths_eq {parent : Nat → Nat} {root : Nat} {name : Nat → String}
    {path : String} :
    ∀ (fuel i : Nat),
      collectChainPaths parent root name path fuel i =
        (strictAncestorChain parent root fuel i).map (fun c => path ++ "/$" ++ name c) := by
  intro fuel
  induction fuel with
  | zero => intro i; rfl
  | succ f ih =>
    intro i
    by_cases hr : i = root
    · simp [collectChainPaths, strictAncestorChain, hr]
    · simp [collectChainPaths, strictAncestorChain, hr, ih]

/-! Claim theorems. -/

/-- C1: for every ring, `MaybeDelete` on any member deletes every member
(each exactly once, since the ring is duplicate-free) when all reference
counts are zero, and deletes nothing when some member's count is non-zero;
in particular one member at zero next to a positive member never triggers a
deletion. -/
theorem maybeDelete_spec (s : ObjState) (self : Nat) (as : List Nat) (fuel : Nat)
    (hring : IsRingFrom s.next self as) (hfuel : as.length < fuel) :
    ((∀ m ∈ self :: as, s.count m = 0) → maybeDelete s self fuel = self :: as) ∧
    ((∃ m ∈ self :: as, s.count m ≠ 0) → maybeDelete s self fuel = []) := by
  obtain ⟨hchain, hback, hnd⟩ := hring
  have hne : ∀ y ∈ as, y ≠ self := fun y hy hc => (List.nodup_cons.mp hnd).1 (hc ▸ hy)
  have hfind := ringFindAux_eq_find (fun m => decide (s.count m ≠ 0))
    as self fuel hchain hback hne hfuel
  constructor
  · intro hz
    have hnone : (self :: as).find? (fun m => decide (s.count m ≠ 0)) = none := by
      rw [List.find?_eq_none]
      intro x hx
      simp [hz x hx]
    rw [maybeDelete, hfind, hnone]
    exact ringWalkAux_eq as self fuel hchain hback hne hfuel
  · rintro ⟨m, hm, hc⟩
    have hsome : ((self :: as).find? (fun m => decide (s.count m ≠ 0))).isSome := by
      rw [List.find?_isSome]
      exact ⟨m, hm, by simpa using hc⟩
    rw [maybeDelete, hfind]
    cases hval : (self :: as).find? (fun m => decide (s.count m ≠ 0)) with
    | none => rw [hval] at hsome; simp at hsome
    | some w => rfl

/-- Witness for C1 on concrete two-member rings: counts `(0, 1)` delete
nothing; counts `(0, 0)` delete both members. -/
theorem maybeDelete_spec_witness :
    maybeDelete exampleStateHalf 0 2 = [] ∧ maybeDelete exampleStateZero 0 2 = [0, 1] := by
  have hring1 : IsRingFrom exampleStateHalf.next 0 [1] :=
    ⟨List.Chain.cons rfl List.Chain.nil, rfl, by decide⟩
  have hring2 : IsRingFrom exampleStateZero.next 0 [1] :=
    ⟨List.Chain.cons rfl List.Chain.nil, rfl, by decide⟩
  constructor
  · exact (maybeDelete_spec exampleStateHalf 0 [1] 2 hring1 (by decide)).2
      ⟨1, by decide, by decide⟩
  · exact (maybeDelete_spec exampleStateZero 0 [1] 2 hring2 (by decide)).1 (by decide)

/-- C4: for every ring with no disposed member, `Dispose` runs each member's
teardown hook exactly once (the returned hook list is the duplicate-free
ring) and marks every member disposed; if any member is already disposed the
walk hits the assertion (`none`); a second disposal of the same ring traps
immediately, before re-running any teardown hook. -/
theorem dispose_spec (s : ObjState) (self : Nat) (as : List Nat) (fuel : Nat)
    (hring : IsRingFrom s.next self as) (hfuel : as.length < fuel) :
    ((∀ m ∈ self :: as, s.disposed m = false) →
        dispose s self fuel =
          (self :: as, some (fun i => if i ∈ self :: as then true else s.disposed i))) ∧
    ((∃ m ∈ self :: as, s.disposed m = true) → (dispose s self fuel).2 = none) ∧
    (s.disposed self = true → dispose s self fuel = ([], none)) := by
  obtain ⟨hchain, hback, hnd⟩ := hring
  have hne : ∀ y ∈ as, y ≠ self := fun y hy hc => (List.nodup_cons.mp hnd).1 (hc ▸ hy)
  refine ⟨?_, ?_, ?_⟩
  · intro hclean
    exact disposeAux_clean as self fuel s.disposed hchain hback hne hnd hclean hfuel
  · intro hdirty
    exact disposeAux_dirty as self fuel s.disposed hchain hne hnd hdirty
  · intro hd
    cases fuel with
    | zero => rfl
    | succ f => simp [dispose, disposeAux, hd]

/-- Witness for C4: disposing the clean two-member ring runs both hooks and
marks both members; disposing a fully disposed ring traps with no hook
run. -/
theorem dispose_spec_witness :
    dispose exampleState 0 2 =
      ((0 : Nat) :: [1], some (fun i => if i ∈ (0 : Nat) :: [1] then true else exampleState.disposed i)) ∧
    dispose exampleDisposedState 0 2 = ([], none) := by
  have hring1 : IsRingFrom exampleState.next 0 [1] :=
    ⟨List.Chain.cons rfl List.Chain.nil, rfl, by decide⟩
  have hring2 : IsRingFrom exampleDisposedState.next 0 [1] :=
    ⟨List.Chain.cons rfl List.Chain.nil, rfl, by decide⟩
  constructor
  · exact (dispose_spec exampleState 0 [1] 2 hring1 (by decide)).1 (by decide)
  · exact (dispose_spec exampleDisposedState 0 [1] 2 hring2 (by decide)).2.2 rfl

/-- C3: for every live ring whose members' ancestor chains reach the root,
`DoQueryInterface` returns the first member in ring order (starting at the
receiver) whose type-or-ancestor chain contains the requested id, returns
`none` exactly when no member's chain contains it, and succeeds whenever
some member's chain contains it. -/
theorem doQueryInterface_spec (s : ObjState) (parent : Nat → Nat)
    (root target self : Nat) (as : List Nat) (ifuel ofuel : Nat)
    (hring : IsRingFrom s.next self as)
    (hroot : ∀ m ∈ self :: as, root ∈ ancestorChain parent root ifuel (s.iid m))
    (hfuel : as.length < ofuel) :
    doQueryInterface s parent root target self ifuel ofuel
        = (self :: as).find?
            (fun m => decide (target ∈ ancestorChain parent root ifuel (s.iid m))) ∧
    (doQueryInterface s parent root target self ifuel ofuel = none ↔
        ∀ m ∈ self :: as, target ∉ ancestorChain parent root ifuel (s.iid m)) ∧
    ((∃ m ∈ self :: as, target ∈ ancestorChain parent root ifuel (s.iid m)) →
        (doQueryInterface s parent root target self ifuel ofuel).isSome = true) := by
  obtain ⟨hchain, hback, hnd⟩ := hring
  have hne : ∀ y ∈ as, y ≠ self := fun y hy hc => (List.nodup_cons.mp hnd).1 (hc ▸ hy)
  have h1 : doQueryInterface s parent root target self ifuel ofuel
      = (self :: as).find?
          (fun m => decide (queryLoop parent root target ifuel (s.iid m) = target)) :=
    ringFindAux_eq_find (fun m => decide (queryLoop parent root target ifuel (s.iid m) = target))
      as self ofuel hchain hback hne hfuel
  have h2 : (self :: as).find?
        (fun m => decide (queryLoop parent root target ifuel (s.iid m) = target))
      = (self :: as).find?
          (fun m => decide (target ∈ ancestorChain parent root ifuel (s.iid m))) := by
    apply find?_congrOn
    intro m hm
    exact decide_eq_decide.mpr (queryLoop_eq_iff ifuel (s.iid m) (hroot m hm))
  have hmain := h1.trans h2
  refine ⟨hmain, ?_, ?_⟩
  · rw [hmain]
    simp [List.find?_eq_none]
  · rintro ⟨m, hm, hmem⟩
    rw [hmain]
    simp only [List.find?_isSome]
    exact ⟨m, hm, by simpa using hmem⟩

/-- Witness for C3: on the concrete two-member ring, querying from member
`0` for member `1`'s own type id returns member `1`. -/
theorem doQueryInterface_spec_witness :
    doQueryInterface exampleState exampleParent 0 3 0 2 2 = some 1 := by
  have hring : IsRingFrom exampleState.next 0 [1] :=
    ⟨List.Chain.cons rfl List.Chain.nil, rfl, by decide⟩
  have h := doQueryInterface_spec exampleState exampleParent 0 3 0 [1] 2 2 hring
    (by decide) (by decide)
  rw [h.1]
  decide

/-- C10: querying for the root id (`Object::iid ()`) from any member whose
own chain reaches the root returns that very member, because the parent walk
of the first examined member already stops at the root and matches. -/
theorem doQueryInterface_root (s : ObjState) (parent : Nat → Nat) (root o : Nat)
    (ifuel ofuel : Nat)
    (hroot : root ∈ ancestorChain parent root ifuel (s.iid o)) :
    doQueryInterface s parent root root o ifuel (ofuel + 1) = some o := by
  have hmatch : queryLoop parent root root ifuel (s.iid o) = root :=
    (queryLoop_eq_iff ifuel (s.iid o) hroot).mpr hroot
  simp [doQueryInterface, ringFindAux, hmatch]

/-- Witness for C10: querying the root id `0` on the concrete ring returns
the receiver itself. -/
theorem doQueryInterface_root_witness :
    doQueryInterface exampleState exampleParent 0 0 0 2 1 = some 0 :=
  doQueryInterface_root exampleState exampleParent 0 0 2 0 (by decide)

/-- C2: for disjoint pre-disposal rings `self :: as` and `other :: bs`,
`AddInterface` produces exactly one duplicate-free cycle whose member set is
the union of both rings (the successor order is `self`, then `other`'s old
successors, then `other`, then `self`'s old successors, so relative order
inside each original ring is preserved and the rings meet only at the splice
point), and no reference count, id or flag changes. -/
theorem addInterface_spec (s : ObjState) (self other : Nat) (as bs : List Nat)
    (h1 : IsRingFrom s.next self as) (h2 : IsRingFrom s.next other bs)
    (hdisj : ∀ x ∈ self :: as, x ∉ other :: bs) :
    IsRingFrom (addInterface s self other).next self (bs ++ other :: as) ∧
    (self :: (bs ++ other :: as)).Perm ((self :: as) ++ (other :: bs)) ∧
    (addInterface s self other).count = s.count ∧
    (addInterface s self other).iid = s.iid ∧
    (addInterface s self other).disposed = s.disposed ∧
    (addInterface s self other).collecting = s.collecting := by
  obtain ⟨hc1, hb1, hn1⟩ := h1
  obtain ⟨hc2, hb2, hn2⟩ := h2
  have hso : self ≠ other :=
    fun hc => hdisj self (List.mem_cons_self _ _) (hc ▸ List.mem_cons_self other bs)
  have hA_ne_self : ∀ y ∈ as, y ≠ self :=
    fun y hy hc => (List.nodup_cons.mp hn1).1 (hc ▸ hy)
  have hA_ne_other : ∀ y ∈ as, y ≠ other :=
    fun y hy hc => hdisj y (List.mem_cons_of_mem _ hy) (hc ▸ List.mem_cons_self other bs)
  have hB_ne_self : ∀ y ∈ bs, y ≠ self :=
    fun y hy hc => hdisj self (List.mem_cons_self _ _) (hc ▸ List.mem_cons_of_mem other hy)
  have hB_ne_other : ∀ y ∈ bs, y ≠ other :=
    fun y hy hc => (List.nodup_cons.mp hn2).1 (hc ▸ hy)
  have hstep : ∀ y, y ≠ self → y ≠ other → (addInterface s self other).next y = s.next y := by
    intro y hy1 hy2
    simp [addInterface, hy1, hy2]
  have hnself : (addInterface s self other).next self = s.next other := by
    simp [addInterface]
  have hnother : (addInterface s self other).next other = s.next self := by
    simp [addInterface, Ne.symm hso]
  have seg1 : List.Chain (fun a b => (addInterface s self other).next a = b) self (bs ++ [other]) := by
    cases bs with
    | nil =>
      have hself_to : (addInterface s self other).next self = other := by
        rw [hnself]; simpa using hb2
      exact List.chain_cons.mpr ⟨hself_to, List.Chain.nil⟩
    | cons b1 bs2 =>
      obtain ⟨hob1, hcb⟩ := List.chain_cons.mp hc2
      have c1 : List.Chain (fun a b => (addInterface s self other).next a = b) b1 bs2 :=
        chainCongr hcb (fun y hy => hstep y (hB_ne_self y hy) (hB_ne_other y hy))
      have hz : (addInterface s self other).next (bs2.getLastD b1) = other := by
        have hmem : bs2.getLastD b1 ∈ b1 :: bs2 := getLastD_mem_cons bs2 b1
        rw [hstep _ (hB_ne_self _ hmem) (hB_ne_other _ hmem), ← List.getLastD_cons other b1 bs2]
        exact hb2
      have c2 : List.Chain (fun a b => (addInterface s self other).next a = b) b1 (bs2 ++ [other]) :=
        chainSnoc c1 hz
      rw [List.cons_append]
      exact List.chain_cons.mpr ⟨by rw [hnself, hob1], c2⟩
  have seg2 : List.Chain (fun a b => (addInterface s self other).next a = b) other as := by
    cases as with
    | nil => exact List.Chain.nil
    | cons a1 as2 =>
      obtain ⟨hsa1, hca⟩ := List.chain_cons.mp hc1
      exact List.chain_cons.mpr
        ⟨by rw [hnother, hsa1],
         chainCongr hca (fun y hy => hstep y (hA_ne_self y hy) (hA_ne_other y hy))⟩
  have chain_full : List.Chain (fun a b => (addInterface s self other).next a = b) self
      (bs ++ other :: as) := List.chain_split.mpr ⟨seg1, seg2⟩
  have closure : (addInterface s self other).next ((bs ++ other :: as).getLastD self) = self := by
    rw [getLastD_append_cons]
    cases as with
    | nil =>
      simp only [List.getLastD_nil]
      rw [hnother]
      simpa using hb1
    | cons a1 as2 =>
      rw [List.getLastD_cons other a1 as2]
      have hmem : as2.getLastD a1 ∈ a1 :: as2 := getLastD_mem_cons as2 a1
      rw [hstep _ (hA_ne_self _ hmem) (hA_ne_other _ hmem), ← List.getLastD_cons self a1 as2]
      exact hb1
  have perm : (self :: (bs ++ other :: as)).Perm ((self :: as) ++ (other :: bs)) := by
    have q : (bs ++ other :: as).Perm (as ++ other :: bs) :=
      List.perm_middle.trans ((List.Perm.cons other List.perm_append_comm).trans
        List.perm_middle.symm)
    exact List.Perm.cons self q
  have nodup : (self :: (bs ++ other :: as)).Nodup := by
    have h := List.nodup_append.mpr ⟨hn1, hn2, hdisj⟩
    exact perm.nodup_iff.mpr h
  exact ⟨⟨chain_full, closure, nodup⟩, perm, rfl, rfl, rfl, rfl⟩

/-- Witness for C2: merging the two disjoint singleton rings `{0}` and `{1}`
yields the two-member cycle `0, 1` with all counts untouched. -/
theorem addInterface_spec_witness :
    IsRingFrom (addInterface examplePairState 0 1).next 0 [1] ∧
    (addInterface examplePairState 0 1).count = examplePairState.count := by
  have h1 : IsRingFrom examplePairState.next 0 [] := ⟨List.Chain.nil, rfl, by decide⟩
  have h2 : IsRingFrom examplePairState.next 1 [] := ⟨List.Chain.nil, rfl, by decide⟩
  have h := addInterface_spec examplePairState 0 1 [] [] h1 h2 (by decide)
  exact ⟨h.1, h.2.2.1⟩

/-- The enumeration walk of `DoCollectSources`/`DoTraceAll` (which starts at
`m_next` and stops on returning to the receiver) emits once per ring member
other than the receiver, in ring order. -/
theorem ringVisit_ring {α : Type} {next : Nat → Nat} {self : Nat} {as : List Nat}
    (emit : Nat → List α) (wfuel : Nat)
    (hchain : List.Chain (fun a b => next a = b) self as)
    (hback : next (as.getLastD self) = self)
    (hnd : (self :: as).Nodup)
    (hw : as.length < wfuel) :
    ringVisitAux next self emit wfuel (next self) = as.flatMap emit := by
  cases as with
  | nil =>
    have hb : next self = self := by simpa using hback
    rw [hb]
    simp [ringVisitAux_self]
  | cons a1 as2 =>
    obtain ⟨hsa1, hca⟩ := List.chain_cons.mp hchain
    rw [hsa1]
    have hne : ∀ y ∈ a1 :: as2, y ≠ self := fun y hy hc => (List.nodup_cons.mp hnd).1 (hc ▸ hy)
    exact ringVisitAux_eq emit as2 a1 wfuel hca
      (by rwa [List.getLastD_cons] at hback) hne (Nat.lt_of_succ_lt (by simpa using hw))

/-- C5 (amended): for every ring with the guard clear, `DoCollectSources`
enumerates exactly the members other than the receiver (the walk runs from
the receiver's successor and stops before revisiting the receiver), and for
each visited member visits the full ancestor chain up to but excluding the
root, delegating with the path extended by `/$` and the type name;
`DoTraceAll` delegates once per member other than the receiver. -/
theorem doCollectSources_spec (s : ObjState) (parent : Nat → Nat) (root : Nat)
    (name : Nat → String) (self : Nat) (path : String) (as : List Nat)
    (ifuel wfuel gfuel : Nat)
    (hring : IsRingFrom s.next self as)
    (hclean : ∀ m ∈ self :: as, s.collecting m = false)
    (hg : as.length < gfuel) (hw : as.length < wfuel) :
    (doCollectSources s parent root name self path ifuel wfuel gfuel).1
        = as.flatMap (fun m => (strictAncestorChain parent root ifuel (s.iid m)).map
            (fun c => (m, path ++ "/$" ++ name c))) ∧
    (doTraceAll s self gfuel wfuel).1 = as ∧
    self ∉ as := by
  obtain ⟨hchain, hback, hnd⟩ := hring
  have hne : ∀ y ∈ as, y ≠ self := fun y hy hc => (List.nodup_cons.mp hnd).1 (hc ▸ hy)
  have hfind := ringFindAux_eq_find (fun m => s.collecting m) as self gfuel hchain hback hne hg
  have hnone : (self :: as).find? (fun m => s.collecting m) = none :=
    List.find?_eq_none.mpr (fun x hx => by simp [hclean x hx])
  have hguard : guardCheck s self gfuel = false := by
    rw [guardCheck, hfind, hnone]
    rfl
  have hemit : (fun m => (collectChainPaths parent root name path ifuel (s.iid m)).map
        (fun fp => ((m, fp) : Nat × String)))
      = (fun m => (strictAncestorChain parent root ifuel (s.iid m)).map
          (fun c => (m, path ++ "/$" ++ name c))) := by
    funext m
    rw [collectChainPaths_eq, List.map_map]
    rfl
  have hv := ringVisit_ring (fun m => (collectChainPaths parent root name path ifuel
    (s.iid m)).map (fun fp => ((m, fp) : Nat × String))) wfuel hchain hback hnd hw
  refine ⟨?_, ?_, (List.nodup_cons.mp hnd).1⟩
  · rw [doCollectSources, if_neg (by simp [hguard])]
    exact hv.trans (congrArg (fun f => as.flatMap f) hemit)
  · rw [doTraceAll, if_neg (by simp [hguard])]
    have hv2 := ringVisit_ring (fun m => ([m] : List Nat)) wfuel hchain hback hnd hw
    exact hv2.trans (by simp)

/-- Witness for C5 (amended): on the concrete two-member ring, collecting
from member `0` ever delegates only for member `1` (with path `/$B`), and
`DoTraceAll` visits only member `1`. -/
theorem doCollectSources_spec_witness :
    (doCollectSources exampleState exampleParent 0 exampleName 0 "" 2 2 2).1
        = [(1, "/$B")] ∧ (doTraceAll exampleState 0 2 2).1 = [1] := by
  have hring : IsRingFrom exampleState.next 0 [1] :=
    ⟨List.Chain.cons rfl List.Chain.nil, rfl, by decide⟩
  have h := doCollectSources_spec exampleState exampleParent 0 exampleName 0 "" [1] 2 2 2
    hring (by decide) (by decide) (by decide)
  refine ⟨?_, h.2.1⟩
  rw [h.1]
  decide

/-- C5 counterexample to the claim as stated: on the concrete two-member
ring, `DoCollectSources` started at member `0` never delegates for member
`0` itself, although member `0` has a non-empty strict ancestor chain — so
the enumeration does not reach every member of the ring. -/
theorem doCollectSources_counterexample :
    (((doCollectSources exampleState exampleParent 0 exampleName 0 "" 2 2 2).1.map
        Prod.fst).contains 0 = false) ∧
    strictAncestorChain exampleParent 0 2 (exampleState.iid 0) ≠ [] := by
  constructor
  · decide
  · decide

/-- C6: if any ring member's `m_collecting` flag is set when
`DoCollectSources` or `DoTraceAll` starts, the call returns immediately with
no delegations and the flags unchanged; while a walk started at `self` is in
progress (receiver's flag set), a re-entrant invocation from any member of
the same ring short-circuits the same way; and when the receiver's flag was
clear the flag state on exit equals the flag state on entry. -/
theorem collectGuard_spec (s : ObjState) (parent : Nat → Nat) (root : Nat)
    (name : Nat → String) (self : Nat) (path : String) (as : List Nat)
    (ifuel wfuel gfuel : Nat)
    (hring : IsRingFrom s.next self as)
    (hg : as.length < gfuel) :
    ((∃ m ∈ self :: as, s.collecting m = true) →
        doCollectSources s parent root name self path ifuel wfuel gfuel = ([], s.collecting) ∧
        doTraceAll s self gfuel wfuel = ([], s.collecting)) ∧
    (∀ m ms gfuel2 ifuel2 wfuel2 (path2 : String),
        IsRingFrom s.next m ms → self ∈ m :: ms → ms.length < gfuel2 →
        doCollectSources (duringState s self) parent root name m path2 ifuel2 wfuel2 gfuel2
            = ([], (duringState s self).collecting) ∧
        doTraceAll (duringState s self) m gfuel2 wfuel2
            = ([], (duringState s self).collecting)) ∧
    (s.collecting self = false →
        (doCollectSources s parent root name self path ifuel wfuel gfuel).2 = s.collecting ∧
        (doTraceAll s self gfuel wfuel).2 = s.collecting) := by
  obtain ⟨hchain, hback, hnd⟩ := hring
  have hne : ∀ y ∈ as, y ≠ self := fun y hy hc => (List.nodup_cons.mp hnd).1 (hc ▸ hy)
  refine ⟨?_, ?_, ?_⟩
  · rintro ⟨m, hm, hcm⟩
    have hfind := ringFindAux_eq_find (fun x => s.collecting x) as self gfuel hchain hback hne hg
    have hguard : guardCheck s self gfuel = true := by
      rw [guardCheck, hfind]
      exact List.find?_isSome.mpr ⟨m, hm, hcm⟩
    exact ⟨by rw [doCollectSources, if_pos hguard], by rw [doTraceAll, if_pos hguard]⟩
  · intro m ms gfuel2 ifuel2 wfuel2 path2 hring2 hmem hg2
    obtain ⟨hchain2, hback2, hnd2⟩ := hring2
    have hne2 : ∀ y ∈ ms, y ≠ m := fun y hy hc => (List.nodup_cons.mp hnd2).1 (hc ▸ hy)
    have hguard : guardCheck (duringState s self) m gfuel2 = true := by
      have heq := ringFindAux_eq_find (fun x => (duringState s self).collecting x)
        ms m gfuel2 hchain2 hback2 hne2 hg2
      show (ringFindAux s.next m (fun x => (duringState s self).collecting x) gfuel2 m).isSome
        = true
      rw [heq]
      exact List.find?_isSome.mpr ⟨self, hmem, by simp [duringState]⟩
    exact ⟨by rw [doCollectSources, if_pos hguard], by rw [doTraceAll, if_pos hguard]⟩
  · intro hcs
    have hflag : (fun i => if i = self then false else s.collecting i) = s.collecting := by
      funext i
      by_cases hi : i = self
      · rw [if_pos hi, hi]
        exact hcs.symm
      · rw [if_neg hi]
    cases hgv : guardCheck s self gfuel with
    | true =>
      exact ⟨by rw [doCollectSources, if_pos hgv], by rw [doTraceAll, if_pos hgv]⟩
    | false =>
      constructor
      · rw [doCollectSources, if_neg (by simp [hgv])]
        exact hflag
      · rw [doTraceAll, if_neg (by simp [hgv])]
        exact hflag

/-- Witness for C6: on the two-member ring whose member `0` has its guard
flag set, `DoTraceAll` and `DoCollectSources` return immediately with no
delegations. -/
theorem collectGuard_spec_witness :
    doTraceAll exampleCollectingState 0 2 2 = ([], exampleCollectingState.collecting) ∧
    doCollectSources exampleCollectingState exampleParent 0 exampleName 0 "" 2 2 2
      = ([], exampleCollectingState.collecting) := by
  have hring : IsRingFrom exampleCollectingState.next 0 [1] :=
    ⟨List.Chain.cons rfl List.Chain.nil, rfl, by decide⟩
  have h := (collectGuard_spec exampleCollectingState exampleParent 0 exampleName 0 "" [1]
    2 2 2 hring (by decide)).1 ⟨0, by decide, by decide⟩
  exact ⟨h.2, h.1⟩

/-- C7: when the first path element starts with `$` and the looked-up id
matches no ring member (`QueryInterface` returns null), the
interface-selecting resolver's `Connect` and `Disconnect` delegate nothing:
an unresolved `$TypeName` selector is a silent no-op. -/
theorem iidtrConnect_spec (s : ObjState) (parent : Nat → Nat) (root : Nat)
    (lookupByName : String → Nat) (aggregate : Nat) (ifuel ofuel : Nat)
    (path : String) (restName : List Char)
    (helem : (getElement path).toList = '$' :: restName)
    (hquery : doQueryInterface s parent root (lookupByName (String.mk restName))
      aggregate ifuel ofuel = none) :
    iidtrConnect s parent root lookupByName aggregate ifuel ofuel path = none ∧
    iidtrDisconnect s parent root lookupByName aggregate ifuel ofuel path = none := by
  have hparse : parseForInterface s parent root lookupByName aggregate ifuel ofuel path
      = none := by
    rw [parseForInterface, helem]
    simpa using hquery
  exact ⟨by rw [iidtrConnect, hparse], by rw [iidtrDisconnect, hparse]⟩

/-- Witness for C7: connecting at `/$B/x` on a singleton ring whose only
member does not match the looked-up id delegates nothing. -/
theorem iidtrConnect_spec_witness :
    iidtrConnect examplePairState exampleParent 0 (fun _ => 3) 0 2 1 "/$B/x" = none ∧
    iidtrDisconnect examplePairState exampleParent 0 (fun _ => 3) 0 2 1 "/$B/x" = none :=
  iidtrConnect_spec examplePairState exampleParent 0 (fun _ => 3) 0 2 1 "/$B/x" ['B']
    (by decide) (by decide)

/-- C8: the common dispatch of every accessor adapter: `Set` fails without
side effect when either downcast fails, succeeds and performs exactly the
bound mutation when both succeed and a mutation path exists, and always
fails without side effect for the getter-only adapter; `Get` is symmetric,
always failing for the setter-only adapter. -/
theorem accessorHelper_spec {Obj Attr T U V A : Type} (box : BoxOps V A)
    (uOfA : A → U) (aOfU : U → A) (fget : T → U) (fset : T → U → T)
    (setter : T → U → T) (getter : T → U)
    (attrDynCast : Attr → Option V) (objDynCast : Obj → Option T)
    (objUpdate : Obj → T → Obj) (attrUpdate : Attr → V → Attr)
    (h : AccessorHelper T V) (object : Obj) (val : Attr) :
    ((attrDynCast val = none ∨ objDynCast object = none) →
        h.set attrDynCast objDynCast objUpdate object val = (false, object) ∧
        h.get attrDynCast objDynCast attrUpdate object val = (false, val)) ∧
    (∀ v t t2, attrDynCast val = some v → objDynCast object = some t →
        h.doSet t v = some t2 →
        h.set attrDynCast objDynCast objUpdate object val = (true, objUpdate object t2)) ∧
    (∀ v t v2, attrDynCast val = some v → objDynCast object = some t →
        h.doGet t v = some v2 →
        h.get attrDynCast objDynCast attrUpdate object val = (true, attrUpdate val v2)) ∧
    ((memberMethodGetter box aOfU getter : AccessorHelper T V).set attrDynCast objDynCast
        objUpdate object val = (false, object)) ∧
    ((memberMethodSetter box uOfA setter : AccessorHelper T V).get attrDynCast objDynCast
        attrUpdate object val = (false, val)) ∧
    (∀ v t, attrDynCast val = some v → objDynCast object = some t →
        (memberVariable box uOfA aOfU fget fset : AccessorHelper T V).set attrDynCast
          objDynCast objUpdate object val
          = (true, objUpdate object (fset t (uOfA (box.get v))))) := by
  refine ⟨?_, ?_, ?_, ?_, ?_, ?_⟩
  · rintro (hv | ho)
    · exact ⟨by simp [AccessorHelper.set, hv], by simp [AccessorHelper.get, hv]⟩
    · cases hav : attrDynCast val with
      | none =>
        exact ⟨by simp [AccessorHelper.set, hav], by simp [AccessorHelper.get, hav]⟩
      | some v =>
        exact ⟨by simp [AccessorHelper.set, hav, ho], by simp [AccessorHelper.get, hav, ho]⟩
  · intro v t t2 hv ht hset
    simp [AccessorHelper.set, hv, ht, hset]
  · intro v t v2 hv ht hget
    simp [AccessorHelper.get, hv, ht, hget]
  · cases hav : attrDynCast val with
    | none => simp [AccessorHelper.set, hav]
    | some v =>
      cases hobj : objDynCast object with
      | none => simp [AccessorHelper.set, hav, hobj]
      | some t => simp [AccessorHelper.set, memberMethodGetter, hav, hobj]
  · cases hav : attrDynCast val with
    | none => simp [AccessorHelper.get, hav]
    | some v =>
      cases hobj : objDynCast object with
      | none => simp [AccessorHelper.get, hav, hobj]
      | some t => simp [AccessorHelper.get, memberMethodSetter, hav, hobj]
  · intro v t hv ht
    simp [AccessorHelper.set, memberVariable, hv, ht]

/-- Witness for C8 on a concrete instantiation (owner and value both `Nat`,
identity downcasts): a getter-only adapter's `Set` fails and leaves the
object alone, while a field adapter's `Set` succeeds and stores the value. -/
theorem accessorHelper_spec_witness :
    (@memberMethodGetter Nat Nat Nat Nat ⟨fun v => v, fun _ a => a⟩ (fun u => u)
        (fun t => t)).set (fun v : Nat => some v) (fun o : Option Nat => o)
        (fun _ t => some t) (some 3) 5 = (false, some 3) ∧
    (@memberVariable Nat Nat Nat Nat ⟨fun v => v, fun _ a => a⟩ (fun a => a) (fun u => u)
        (fun t => t) (fun _ u => u)).set (fun v : Nat => some v) (fun o : Option Nat => o)
        (fun _ t => some t) (some 3) 5 = (true, some 5) := by
  have h := @accessorHelper_spec (Option Nat) Nat Nat Nat Nat Nat
    ⟨fun v => v, fun _ a => a⟩ (fun a => a) (fun u => u) (fun t => t) (fun _ u => u)
    (fun _ u => u) (fun t => t) (fun v => some v) (fun o => o) (fun _ t => some t)
    (fun _ v => v)
    (@memberVariable Nat Nat Nat Nat ⟨fun v => v, fun _ a => a⟩ (fun a => a) (fun u => u)
      (fun t => t) (fun _ u => u)) (some 3) 5
  exact ⟨h.2.2.2.1, h.2.2.2.2.2 5 3 rfl rfl⟩

/-- C9: for a field adapter whose boxed encode/decode is lossless on the
stored value, `Set` with an input box holding `v` followed by `Get` into an
output box succeeds and yields an output box representing the same value
`v` — the set-then-get round trip is the identity on the stored value. -/
theorem memberVariable_roundtrip {T U V A : Type} (box : BoxOps V A) (uOfA : A → U)
    (aOfU : U → A) (fget : T → U) (fset : T → U → T) (obj : T) (vIn vOut : V)
    (hlens : ∀ t u, fget (fset t u) = u)
    (hbox : ∀ v a, box.get (box.set v a) = a)
    (hlossless : aOfU (uOfA (box.get vIn)) = box.get vIn) :
    (memberVariable box uOfA aOfU fget fset : AccessorHelper T V).set
        (fun v : V => some v) (fun t : T => some t) (fun _ t => t) obj vIn
      = (true, fset obj (uOfA (box.get vIn))) ∧
    (memberVariable box uOfA aOfU fget fset : AccessorHelper T V).get
        (fun v : V => some v) (fun t : T => some t) (fun _ v => v)
        (((memberVariable box uOfA aOfU fget fset : AccessorHelper T V).set
          (fun v : V => some v) (fun t : T => some t) (fun _ t => t) obj vIn).2) vOut
      = (true, box.set vOut (box.get vIn)) ∧
    box.get (box.set vOut (box.get vIn)) = box.get vIn := by
  have hset : (memberVariable box uOfA aOfU fget fset : AccessorHelper T V).set
      (fun v : V => some v) (fun t : T => some t) (fun _ t => t) obj vIn
      = (true, fset obj (uOfA (box.get vIn))) := by
    simp [AccessorHelper.set, memberVariable]
  refine ⟨hset, ?_, hbox vOut (box.get vIn)⟩
  rw [hset]
  simp [AccessorHelper.get, memberVariable, hlens, hlossless]

/-- Witness for C9: with owner and value `Nat`, identity boxing and a plain
field, storing `7` and reading it back yields `7`. -/
theorem memberVariable_roundtrip_witness :
    (@memberVariable Nat Nat Nat Nat ⟨fun v => v, fun _ a => a⟩ (fun a => a) (fun u => u)
        (fun t => t) (fun _ u => u)).set (fun v : Nat => some v) (fun t : Nat => some t)
        (fun _ t => t) 0 7 = (true, 7) ∧
    (@memberVariable Nat Nat Nat Nat ⟨fun v => v, fun _ a => a⟩ (fun a => a) (fun u => u)
        (fun t => t) (fun _ u => u)).get (fun v : Nat => some v) (fun t : Nat => some t)
        (fun _ v => v)
        (((@memberVariable Nat Nat Nat Nat ⟨fun v => v, fun _ a => a⟩ (fun a => a)
          (fun u => u) (fun t => t) (fun _ u => u)).set (fun v : Nat => some v)
          (fun t : Nat => some t) (fun _ t => t) 0 7).2) 0 = (true, 7) ∧
    (7 : Nat) = 7 :=
  memberVariable_roundtrip ⟨fun v => v, fun _ a => a⟩ (fun a => a) (fun u => u)
    (fun t => t) (fun _ u => u) 0 7 0 (fun _ _ => rfl) (fun _ _ => rfl) rfl

end NS3
